import Mathlib

/-!
Verification of the batched recognition scheduler in `surya/recognition.py`.

The development shallowly embeds the four pieces of the module the claims
are about:

* `get_available_memory_gb` / `get_batch_size` — memory introspection and
  batch-size estimation, with memory readings as exact rationals and the
  failing-query case modelled by `Option`;
* `pad_to_batch_size` — appending zero rows along the first tensor axis;
* the autoregressive decode loop of `batch_recognition` — the per-step
  argmax/softmax results of the neural decoder are abstracted as a `Trace`
  (an arbitrary function of the step number and the sample index), and the
  loop state (token counter, done mask, score matrix, prediction lists) is
  stepped exactly as the source does;
* the batch planner and result assembler of `batch_recognition` — sorting
  by image width with `enumerate` indices retained, slicing into batches,
  and the final re-sort by original index.
-/

/- ### Memory introspection and batch-size estimation -/

/-- The configured torch device, mirroring `settings.TORCH_DEVICE_MODEL`. -/
inductive Device
  | cuda
  | mps
  | other
deriving DecidableEq

/-- Environment readings used by memory introspection. `sysMem` is
`psutil.virtual_memory().available` converted to GB (`none` models a failing
query); `cudaAvailable` mirrors `torch.cuda.is_available()`; `cudaMem` is
`torch.cuda.get_device_properties(0).total_memory` in GB. -/
structure MemEnv where
  device : Device
  sysMem : Option ℚ
  cudaAvailable : Bool
  cudaMem : ℚ

/-- `get_available_memory_gb`: returns the pair (system memory, optional
GPU/MPS memory). The source has no exception handler, so a failing
system-memory query propagates as `none`. On mps the GPU reading is
estimated as 70% of system RAM. -/
def get_available_memory_gb (env : MemEnv) : Option (ℚ × Option ℚ) :=
  match env.sysMem with
  | none => none
  | some sys_memory =>
    let gpu_memory : Option ℚ :=
      if env.device = Device.cuda ∧ env.cudaAvailable then some env.cudaMem
      else if env.device = Device.mps then some (sys_memory * (7 / 10))
      else none
    some (sys_memory, gpu_memory)

/-- Python truthiness of `gpu_memory` in `gpu_memory if gpu_memory else
sys_memory`: `None` and `0.0` are both falsy. -/
def truthy (q : Option ℚ) : Bool :=
  match q with
  | none => false
  | some v => decide (v ≠ 0)

/-- `get_batch_size`: derive a batch size from available memory. A failing
memory query propagates (`none`); otherwise the source arithmetic is
reproduced over exact rationals (`mem_per_sample = 0.1`, 20% buffer,
clamp to [8, 512], mps cap 64, cuda rounding down to a multiple of 8;
Python `//` on nonnegative ints agrees with `Int` division here). -/
def get_batch_size (env : MemEnv) : Option ℤ :=
  match get_available_memory_gb env with
  | none => none
  | some (sys_memory, gpu_memory) =>
    let mem_per_sample : ℚ := 1 / 10
    let min_batch : ℤ := 8
    let max_batch : ℤ := 512
    let available_memory : ℚ :=
      if truthy gpu_memory then gpu_memory.getD sys_memory else sys_memory
    let safe_memory : ℚ := available_memory * (8 / 10)
    let optimal_batch : ℤ := ⌊safe_memory / mem_per_sample⌋
    let batch_size : ℤ := max min_batch (min optimal_batch max_batch)
    let batch_size : ℤ :=
      if env.device = Device.mps then min batch_size 64
      else if env.device = Device.cuda then (batch_size / 8) * 8
      else batch_size
    some batch_size

/- ### Padding to the static cache capacity -/

/-- `pad_to_batch_size`: if the tensor already has at least `batch_size`
rows along its first axis it is returned unchanged; otherwise zero rows are
appended at the end of the first axis (`F.pad` with the trailing `(0,
pad_size)` pair acting on dimension 0). A row of the tensor is abstracted
as an element of `α` with designated zero row `zeroRow`. -/
def pad_to_batch_size {α : Type} (zeroRow : α) (tensor : List α) (batch_size : ℕ) :
    List α :=
  if batch_size ≤ tensor.length then tensor
  else tensor ++ List.replicate (batch_size - tensor.length) zeroRow

/- ### The decode loop -/

/-- Token ids of the tokenizer and the loop budget
`settings.RECOGNITION_MAX_TOKENS`. -/
structure DecodeParams where
  eosId : ℕ
  padId : ℕ
  maxTokens : ℕ

/-- Abstract decoder outputs. For decode call `s` (0-based) and sample `j`,
`predOf s j` is `torch.argmax(logits[:, -1])[j]` and `scoreOf s j` is
`torch.max(F.softmax(logits[:, -1]))[j]`, both taken after the
`[:current_batch_size]` truncation that discards cache-padding rows. -/
structure Trace where
  predOf : ℕ → ℕ → ℕ
  scoreOf : ℕ → ℕ → ℚ

/-- `(preds == eos_id) | (preds == pad_id)` for one sample. -/
def isDoneTok (P : DecodeParams) (tok : ℕ) : Bool :=
  tok == P.eosId || tok == P.padId

/-- The per-batch loop state of `batch_recognition`. Sample-indexed tensors
(`all_done`, the rows of `sequence_scores`, `batch_predictions`) are
modelled as functions of the sample index; only indices `< n` are
meaningful. `steps` counts decoder invocations and `broke` records exiting
through the `all_done.all()` break. The source initialises
`sequence_scores = None`; rows start here as `[]` and are overwritten at
the prefill step exactly as the source's first assignment does. -/
structure DecState where
  tokenCount : ℕ
  inferenceTokenCount : ℕ
  allDone : ℕ → Bool
  seqScores : ℕ → List ℚ
  batchPredictions : ℕ → List ℕ
  steps : ℕ
  broke : Bool

/-- One iteration of the `while` body: compute preds/scores for this step,
fold the newly done samples into `all_done`, record the masked step
scores, break when every sample is done, otherwise append predictions for
non-done samples and advance the token counter. Two source subtleties are
reproduced: the mask uses the **updated** `all_done`, and the out-of-place
`scores.masked_fill(all_done, 0)` broadcasts the `(n,)` mask against the
`(n, 1)` score column into an `(n, n)` block — entry `[i][j]` is 0 when
*column* sample `j` is done and row sample `i`'s step score otherwise — so
`torch.cat(..., dim=1)` appends `n` entries to every row per non-prefill
step. The prefill step's scores are assigned unmasked as an `(n, 1)`
column. -/
def decodeStep (P : DecodeParams) (tr : Trace) (n : ℕ) (st : DecState) :
    DecState × Bool :=
  let s := st.steps
  let is_prefill := st.tokenCount == 0
  let done : ℕ → Bool := fun j => isDoneTok P (tr.predOf s j)
  let all_done : ℕ → Bool := fun j => st.allDone j || done j
  let sequence_scores : ℕ → List ℚ :=
    if is_prefill then fun i => [tr.scoreOf s i]
    else fun i => st.seqScores i ++
      (List.range n).map fun j => if all_done j then 0 else tr.scoreOf s i
  if (List.range n).all all_done then
    ({ st with
        allDone := all_done
        seqScores := sequence_scores
        steps := s + 1
        broke := true }, true)
  else
    ({ tokenCount := st.tokenCount + st.inferenceTokenCount
       inferenceTokenCount := 1
       allDone := all_done
       seqScores := sequence_scores
       batchPredictions := fun j =>
         if all_done j then st.batchPredictions j
         else st.batchPredictions j ++ [tr.predOf s j]
       steps := s + 1
       broke := false }, false)

/-- The `while token_count < settings.RECOGNITION_MAX_TOKENS - 1` loop,
written with explicit fuel. Fuel `maxTokens` already suffices (proved with
claim C8: the result is fuel-independent once `maxTokens ≤ fuel`), so the
fuel is bookkeeping, not a semantic bound. -/
def runLoop (P : DecodeParams) (tr : Trace) (n : ℕ) : ℕ → DecState → DecState
  | 0, st => st
  | fuel + 1, st =>
    if st.tokenCount < P.maxTokens - 1 then
      match decodeStep P tr n st with
      | (st', true) => st'
      | (st', false) => runLoop P tr n fuel st'
    else st

/-- Loop state on entry: `token_count = 0`, `inference_token_count` is the
width `L` of the initial decoder input (at least 1, since every row starts
with the decoder start token), empty predictions and score rows, nothing
done. -/
def initState (L : ℕ) : DecState where
  tokenCount := 0
  inferenceTokenCount := L
  allDone := fun _ => false
  seqScores := fun _ => []
  batchPredictions := fun _ => []
  steps := 0
  broke := false

/-- The decode loop of one batch of `n` samples with initial decoder input
width `L`, run with the given fuel. -/
def decodeLoop (P : DecodeParams) (tr : Trace) (n L fuel : ℕ) : DecState :=
  runLoop P tr n fuel (initState L)

/-- `torch.sum(sequence_scores != 0, dim=-1)` for one row. -/
def countNonzero (row : List ℚ) : ℕ :=
  (row.filter fun x => decide (x ≠ 0)).length

/-- `torch.sum(sequence_scores, dim=-1) / torch.sum(sequence_scores != 0,
dim=-1)` for one row (the source divides tensors elementwise). In `ℚ` a
zero denominator gives 0; the safety claim C10 shows the denominator is
positive on the reachable states in question. -/
def confidence (row : List ℚ) : ℚ :=
  row.sum / (countNonzero row : ℚ)

/-- Sample `j` has emitted an end/pad token at some step `≤ s`. -/
def doneBy (P : DecodeParams) (tr : Trace) (j s : ℕ) : Bool :=
  (List.range (s + 1)).any fun s2 => isDoneTok P (tr.predOf s2 j)

/-- The score entry masking of a one-sample batch at step `s`: the prefill
score is stored raw; later steps store 0 as soon as the sample is done by
the end of that step (the terminal step included). For `n = 1` the
broadcast block of `recordedBlock` degenerates to exactly this entry. -/
def recordedScore (P : DecodeParams) (tr : Trace) (j s : ℕ) : ℚ :=
  if s = 0 then tr.scoreOf 0 j
  else if doneBy P tr j s then 0 else tr.scoreOf s j

/-- Closed form of the predictions accumulated for sample `j` over steps
`[0, k)`: the step-`s` token is kept unless the sample is done by step `s`. -/
def recordedPreds (P : DecodeParams) (tr : Trace) (j k : ℕ) : List ℕ :=
  (List.range k).filterMap fun s =>
    if doneBy P tr j s then none else some (tr.predOf s j)

/-- Closed form of the `n` entries the broadcast
`scores.masked_fill(all_done, 0)` block contributes to row `i` at a
non-prefill step `s`: the entry in column `j` is zero exactly when sample
`j` is done by the end of step `s`, and row sample `i`'s raw step score
otherwise. -/
def recordedBlock (P : DecodeParams) (tr : Trace) (n i s : ℕ) : List ℚ :=
  (List.range n).map fun j => if doneBy P tr j s then 0 else tr.scoreOf s i

/-- Closed form of sample `i`'s full score row after `k` recorded steps:
the raw prefill score, then one `n`-wide column-masked block per later
step. -/
def recordedRow (P : DecodeParams) (tr : Trace) (n i : ℕ) : ℕ → List ℚ
  | 0 => []
  | k + 1 =>
    recordedRow P tr n i k ++
      (if k = 0 then [tr.scoreOf 0 i] else recordedBlock P tr n i k)

/- ### Batch planning and result assembly -/

/-- `sorted(enumerate(images), key=lambda x: x[1].width)`: the
(original index, image) pairs stably sorted by image width ascending.
Python's `sorted` is stable, as is `List.insertionSort`. -/
def sortedPairs {α : Type} (width : α → ℕ) (images : List α) : List (ℕ × α) :=
  List.insertionSort (fun a b => width a.2 ≤ width b.2) images.enum

/-- The batching loop `for i in range(0, len(images), batch_size)`: slice
`items` (the width-sorted images) and `langs` (the caller's language list,
which the source does **not** reorder) at the same offsets, apply the
per-batch pipeline `f`, and concatenate results in batch order (the
`output_text.extend(...)` accumulation). Returns `[]` for `bs = 0`, a case
the source would reject (`range` with step 0 raises). -/
def runBatches {α L R : Type} (f : List α → List L → List R) (bs : ℕ)
    (items : List α) (langs : List L) : List R :=
  if items.isEmpty || bs == 0 then []
  else
    f (items.take bs) (langs.take bs) ++
      runBatches f bs (items.drop bs) (langs.drop bs)
termination_by items.length
decreasing_by
  rename_i h
  simp only [Bool.or_eq_true, List.isEmpty_iff, beq_iff_eq, not_or] at h
  have : 0 < items.length := List.length_pos.mpr h.1
  simp only [List.length_drop]
  omega

/-- The batches handed to the processor and decoder: each batch pairs a
slice of the width-sorted (original index, image) list with the slice of
the **original-order** language list at the same offsets, exactly as the
source computes `batch_images = images[i:i+batch_size]` (post-sort) and
`batch_langs = languages[i:i+batch_size]` (never reordered). -/
def plannedChunks {α L : Type} (bs : ℕ) (pairs : List (ℕ × α))
    (langs : List L) : List (List (ℕ × α) × List L) :=
  if pairs.isEmpty || bs == 0 then []
  else
    (pairs.take bs, langs.take bs) ::
      plannedChunks bs (pairs.drop bs) (langs.drop bs)
termination_by pairs.length
decreasing_by
  rename_i h
  simp only [Bool.or_eq_true, List.isEmpty_iff, beq_iff_eq, not_or] at h
  have : 0 < pairs.length := List.length_pos.mpr h.1
  simp only [List.length_drop]
  omega

/-- The batch plan of `batch_recognition`: width-sort with retained
original indices, then contiguous slices paired with same-offset slices of
the caller's language list. -/
def plan {α L : Type} (width : α → ℕ) (images : List α) (languages : List L)
    (batch_size : ℕ) : List (List (ℕ × α) × List L) :=
  plannedChunks batch_size (sortedPairs width images) languages

/-- `batch_recognition`, with the per-batch recognition pipeline abstracted
as `fText`/`fConf` (the source fills `output_text` and `confidences` from
the same batch loop; they are abstracted as two functions of the batch's
images and language slices). Mirrors the source: early return on empty
input, width-sort keeping `indices`, per-batch accumulation, and the final
re-sort of `zip(indices, ...)` by original index. -/
def batch_recognition {α L R S : Type} (width : α → ℕ) (images : List α)
    (languages : List L) (fText : List α → List L → List R)
    (fConf : List α → List L → List S) (batch_size : ℕ) :
    List R × List S :=
  if images.length = 0 then ([], [])
  else
    let sp := sortedPairs width images
    let indices := sp.map Prod.fst
    let sorted_images := sp.map Prod.snd
    let output_text := runBatches fText batch_size sorted_images languages
    let confidences := runBatches fConf batch_size sorted_images languages
    let sorted_text :=
      List.insertionSort (fun a b => a.1 ≤ b.1) (indices.zip output_text)
    let sorted_conf :=
      List.insertionSort (fun a b => a.1 ≤ b.1) (indices.zip confidences)
    (sorted_text.map Prod.snd, sorted_conf.map Prod.snd)

/- ### Theorems: padding (C9) -/

/-- C9: Pad-then-truncate round trip — for every tensor `t` with `n` rows
along the first axis and every declared capacity `b`, the first `n` rows of
`pad_to_batch_size t b` are exactly `t`, and everything after row `n` is
the appended block of `b - n` zero rows (empty when `b ≤ n`). -/
theorem pad_to_batch_size_round_trip {α : Type} (zeroRow : α) (tensor : List α)
    (batch_size : ℕ) :
    (pad_to_batch_size zeroRow tensor batch_size).take tensor.length = tensor ∧
    (pad_to_batch_size zeroRow tensor batch_size).drop tensor.length =
      List.replicate (batch_size - tensor.length) zeroRow := by
  unfold pad_to_batch_size
  split
  · next h =>
    refine ⟨List.take_length tensor, ?_⟩
    rw [List.drop_length, Nat.sub_eq_zero_of_le h, List.replicate_zero]
  · exact ⟨List.take_left tensor _, List.drop_left tensor _⟩

/- ### Theorems: batch-size estimation (C6, C7) -/

/-- The `max(min_batch, min(optimal_batch, max_batch))` clamp lands in
[8, 512]. -/
theorem clamp_mem (x : ℤ) : 8 ≤ max 8 (min x 512) ∧ max 8 (min x 512) ≤ 512 :=
  ⟨le_max_left _ _, max_le (by norm_num) (min_le_right _ _)⟩

/-- The cuda quantization `(b // 8) * 8` keeps the [8, 512] bounds and
produces a multiple of 8. -/
theorem cuda_adjust_mem (v : ℤ) (h8 : 8 ≤ v) (h512 : v ≤ 512) :
    8 ≤ v / 8 * 8 ∧ v / 8 * 8 ≤ 512 ∧ (8 : ℤ) ∣ v / 8 * 8 := by
  refine ⟨?_, le_trans (Int.ediv_mul_le v (by norm_num)) h512, ⟨v / 8, by ring⟩⟩
  have h1 : (1 : ℤ) ≤ v / 8 := by
    rw [Int.le_ediv_iff_mul_le (by norm_num)]
    omega
  nlinarith

/-- Device-specific adjustment applied to the clamped value keeps every
bound the claim states, whatever integer the floor produced. -/
theorem device_adjust_bounds (dev : Device) (F : ℤ) :
    8 ≤ (if dev = Device.mps then min (max 8 (min F 512)) 64
      else if dev = Device.cuda then max 8 (min F 512) / 8 * 8
      else max 8 (min F 512)) ∧
    (if dev = Device.mps then min (max 8 (min F 512)) 64
      else if dev = Device.cuda then max 8 (min F 512) / 8 * 8
      else max 8 (min F 512)) ≤ 512 ∧
    (dev = Device.cuda →
      (8 : ℤ) ∣ (if dev = Device.mps then min (max 8 (min F 512)) 64
        else if dev = Device.cuda then max 8 (min F 512) / 8 * 8
        else max 8 (min F 512))) ∧
    (dev = Device.mps →
      (if dev = Device.mps then min (max 8 (min F 512)) 64
        else if dev = Device.cuda then max 8 (min F 512) / 8 * 8
        else max 8 (min F 512)) ≤ 64) := by
  obtain ⟨h8, h512⟩ := clamp_mem F
  cases dev with
  | cuda =>
    obtain ⟨a, b, c⟩ := cuda_adjust_mem _ h8 h512
    simp only [reduceCtorEq, if_false, if_true, reduceIte]
    refine ⟨a, b, fun _ => c, fun h => absurd h (by simp)⟩
  | mps =>
    simp only [reduceCtorEq, if_false, if_true, reduceIte]
    refine ⟨le_min h8 (by norm_num), le_trans (min_le_left _ _) h512,
      fun h => absurd h (by simp), fun _ => min_le_right _ _⟩
  | other =>
    simp only [reduceCtorEq, if_false, if_true, reduceIte]
    refine ⟨h8, h512, fun h => absurd h (by simp), fun h => absurd h (by simp)⟩

/-- C6: For every memory reading (any rational, including 0 and arbitrarily
large values) and every device setting, `get_batch_size` returns a value in
[8, 512]; on cuda the value is a multiple of 8 and on mps it is at most
64. -/
theorem get_batch_size_bounds (env : MemEnv) (b : ℤ)
    (h : get_batch_size env = some b) :
    8 ≤ b ∧ b ≤ 512 ∧ (env.device = Device.cuda → (8 : ℤ) ∣ b) ∧
      (env.device = Device.mps → b ≤ 64) := by
  obtain ⟨dev, sysMem, ca, cm⟩ := env
  cases sysMem with
  | none => simp [get_batch_size, get_available_memory_gb] at h
  | some m =>
    simp only [get_batch_size, get_available_memory_gb, Option.some.injEq] at h
    subst h
    exact device_adjust_bounds dev _

/-- Witness for C6: on a cuda device with zero memory readings the estimate
is exactly 8, and the theorem's bounds hold there. -/
theorem get_batch_size_bounds_witness :
    (8 : ℤ) ≤ 8 ∧ (8 : ℤ) ≤ 512 ∧
      ((MemEnv.mk Device.cuda (some 0) true 0).device = Device.cuda →
        (8 : ℤ) ∣ 8) ∧
      ((MemEnv.mk Device.cuda (some 0) true 0).device = Device.mps →
        (8 : ℤ) ≤ 64) :=
  get_batch_size_bounds ⟨Device.cuda, some 0, true, 0⟩ 8
    (by simp [get_batch_size, get_available_memory_gb, truthy])

/-- C7 counterexample: when the memory query fails, `get_batch_size` does
not fall back to the minimum batch size 8 — the failure propagates (the
source has no exception handler around `psutil`). -/
theorem get_batch_size_query_failure_cex :
    get_batch_size ⟨Device.other, none, false, 0⟩ = none ∧
      get_batch_size ⟨Device.other, none, false, 0⟩ ≠ some 8 := by
  exact ⟨rfl, by simp [get_batch_size, get_available_memory_gb]⟩

/-- C7 (amended): a failing memory query propagates out of batch-size
estimation as a failure on every device; it is a *zero* memory reading
(introspection succeeds but reports nothing available) that degrades the
estimate to the minimum batch size 8. -/
theorem get_batch_size_failure_propagates (dev : Device) (ca : Bool) (cm : ℚ) :
    get_batch_size ⟨dev, none, ca, cm⟩ = none ∧
      get_batch_size ⟨dev, some 0, ca, 0⟩ = some 8 := by
  refine ⟨rfl, ?_⟩
  cases dev <;> cases ca <;>
    simp [get_batch_size, get_available_memory_gb, truthy]

/- ### Decode-loop lemmas -/

/-- `doneBy` at step 0 is just the prefill token test. -/
theorem doneBy_zero (P : DecodeParams) (tr : Trace) (j : ℕ) :
    doneBy P tr j 0 = isDoneTok P (tr.predOf 0 j) := by
  simp [doneBy, List.range_succ]

/-- `doneBy` unfolds one step at a time (the done-set accumulates by
logical or). -/
theorem doneBy_succ (P : DecodeParams) (tr : Trace) (j s : ℕ) :
    doneBy P tr j (s + 1) =
      (doneBy P tr j s || isDoneTok P (tr.predOf (s + 1) j)) := by
  simp [doneBy, List.range_succ, Bool.or_assoc]

/-- The done-set is monotone in the step index. -/
theorem doneBy_mono (P : DecodeParams) (tr : Trace) {j s s' : ℕ} (h : s ≤ s')
    (hd : doneBy P tr j s = true) : doneBy P tr j s' = true := by
  simp only [doneBy, List.any_eq_true, List.mem_range] at hd ⊢
  obtain ⟨x, hx, hdx⟩ := hd
  exact ⟨x, by omega, hdx⟩

/-- A sample never emitting eos/pad through step `s` is not done by `s`. -/
theorem doneBy_eq_false (P : DecodeParams) (tr : Trace) {j s : ℕ}
    (h : ∀ s' ≤ s, isDoneTok P (tr.predOf s' j) = false) :
    doneBy P tr j s = false := by
  simp only [doneBy, List.any_eq_false, List.mem_range]
  intro x hx
  simp [h x (Nat.lt_succ_iff.mp hx)]

/-- The break condition of `decodeStep`. -/
theorem decodeStep_snd (P : DecodeParams) (tr : Trace) (n : ℕ) (st : DecState) :
    (decodeStep P tr n st).2 =
      (List.range n).all
        (fun j => st.allDone j || isDoneTok P (tr.predOf st.steps j)) := by
  simp only [decodeStep]
  split <;> simp_all

/-- Shape of the state after a breaking step. -/
theorem decodeStep_fst_of_break (P : DecodeParams) (tr : Trace) (n : ℕ)
    (st : DecState)
    (h : (List.range n).all
      (fun j => st.allDone j || isDoneTok P (tr.predOf st.steps j)) = true) :
    (decodeStep P tr n st).1 =
      { st with
          allDone := fun j => st.allDone j || isDoneTok P (tr.predOf st.steps j)
          seqScores :=
            if st.tokenCount == 0 then fun i => [tr.scoreOf st.steps i]
            else fun i => st.seqScores i ++
              (List.range n).map fun j =>
                if st.allDone j || isDoneTok P (tr.predOf st.steps j) then 0
                else tr.scoreOf st.steps i
          steps := st.steps + 1
          broke := true } := by
  simp only [decodeStep, h, if_true]

/-- Shape of the state after a non-breaking step. -/
theorem decodeStep_fst_of_cont (P : DecodeParams) (tr : Trace) (n : ℕ)
    (st : DecState)
    (h : (List.range n).all
      (fun j => st.allDone j || isDoneTok P (tr.predOf st.steps j)) = false) :
    (decodeStep P tr n st).1 =
      { tokenCount := st.tokenCount + st.inferenceTokenCount
        inferenceTokenCount := 1
        allDone := fun j => st.allDone j || isDoneTok P (tr.predOf st.steps j)
        seqScores :=
          if st.tokenCount == 0 then fun i => [tr.scoreOf st.steps i]
          else fun i => st.seqScores i ++
            (List.range n).map fun j =>
              if st.allDone j || isDoneTok P (tr.predOf st.steps j) then 0
              else tr.scoreOf st.steps i
        batchPredictions := fun j =>
          if st.allDone j || isDoneTok P (tr.predOf st.steps j) then
            st.batchPredictions j
          else st.batchPredictions j ++ [tr.predOf st.steps j]
        steps := st.steps + 1
        broke := false } := by
  simp only [decodeStep, h, Bool.false_eq_true, if_false]

/-- A decode step always advances the step counter by one. -/
theorem decodeStep_steps (P : DecodeParams) (tr : Trace) (n : ℕ) (st : DecState) :
    (decodeStep P tr n st).1.steps = st.steps + 1 := by
  simp only [decodeStep]
  split <;> rfl

/-- A decode step always produces the or-accumulated done mask. -/
theorem decodeStep_allDone (P : DecodeParams) (tr : Trace) (n : ℕ) (st : DecState) :
    (decodeStep P tr n st).1.allDone =
      fun j => st.allDone j || isDoneTok P (tr.predOf st.steps j) := by
  simp only [decodeStep]
  split <;> rfl

/-- A non-breaking step advances `token_count` by `inference_token_count`. -/
theorem decodeStep_tokenCount_of_cont (P : DecodeParams) (tr : Trace) (n : ℕ)
    (st : DecState) (h : (decodeStep P tr n st).2 = false) :
    (decodeStep P tr n st).1.tokenCount =
      st.tokenCount + st.inferenceTokenCount := by
  have hc : (List.range n).all
      (fun j => st.allDone j || isDoneTok P (tr.predOf st.steps j)) = false := by
    rw [← decodeStep_snd P tr n st]
    exact h
  rw [decodeStep_fst_of_cont P tr n st hc]

/-- After a non-breaking step the next input is a single token. -/
theorem decodeStep_itc_of_cont (P : DecodeParams) (tr : Trace) (n : ℕ)
    (st : DecState) (h : (decodeStep P tr n st).2 = false) :
    (decodeStep P tr n st).1.inferenceTokenCount = 1 := by
  have hc : (List.range n).all
      (fun j => st.allDone j || isDoneTok P (tr.predOf st.steps j)) = false := by
    rw [← decodeStep_snd P tr n st]
    exact h
  rw [decodeStep_fst_of_cont P tr n st hc]

/-- Once the loop condition fails, the loop is the identity whatever the
fuel. -/
theorem runLoop_of_not_cond (P : DecodeParams) (tr : Trace) (n : ℕ)
    (st : DecState) (h : ¬ st.tokenCount < P.maxTokens - 1) (fuel : ℕ) :
    runLoop P tr n fuel st = st := by
  cases fuel <;> simp [runLoop, h]

/-- Step-count bound for the while loop: starting from a state whose next
input is nonempty, the loop performs at most `maxTokens - 1 - token_count`
further decoder calls. -/
theorem runLoop_steps_le (P : DecodeParams) (tr : Trace) (n : ℕ) :
    ∀ fuel st, 1 ≤ st.inferenceTokenCount →
      (runLoop P tr n fuel st).steps ≤
        st.steps + (P.maxTokens - 1 - st.tokenCount) := by
  intro fuel
  induction fuel with
  | zero => intro st _; simp [runLoop]
  | succ fuel ih =>
    intro st hitc
    simp only [runLoop]
    split
    · next hcond =>
      rcases hstep : decodeStep P tr n st with ⟨st', brk⟩
      have hsteps : st'.steps = st.steps + 1 := by
        have h := decodeStep_steps P tr n st
        rw [hstep] at h
        exact h
      cases brk with
      | true =>
        dsimp only
        omega
      | false =>
        have htc : st'.tokenCount = st.tokenCount + st.inferenceTokenCount := by
          have h := decodeStep_tokenCount_of_cont P tr n st (by rw [hstep])
          rw [hstep] at h
          exact h
        have hitc' : st'.inferenceTokenCount = 1 := by
          have h := decodeStep_itc_of_cont P tr n st (by rw [hstep])
          rw [hstep] at h
          exact h
        have := ih st' (by omega)
        dsimp only
        omega
    · omega

/-- The loop's result does not depend on the fuel once the fuel covers the
remaining token budget: this is the termination of the source's `while`
loop. -/
theorem runLoop_fuel_irrelevant (P : DecodeParams) (tr : Trace) (n : ℕ) :
    ∀ fuel₁ fuel₂ st, 1 ≤ st.inferenceTokenCount →
      P.maxTokens ≤ st.tokenCount + fuel₁ →
      P.maxTokens ≤ st.tokenCount + fuel₂ →
      runLoop P tr n fuel₁ st = runLoop P tr n fuel₂ st := by
  intro fuel₁
  induction fuel₁ with
  | zero =>
    intro fuel₂ st _ h1 _
    rw [runLoop, runLoop_of_not_cond P tr n st (by omega)]
  | succ fuel₁ ih =>
    intro fuel₂ st hitc h1 h2
    cases fuel₂ with
    | zero =>
      rw [runLoop, runLoop_of_not_cond P tr n st (by omega)]
    | succ fuel₂ =>
      simp only [runLoop]
      split
      · next hcond =>
        rcases hstep : decodeStep P tr n st with ⟨st', brk⟩
        cases brk with
        | true => rfl
        | false =>
          have htc : st'.tokenCount = st.tokenCount + st.inferenceTokenCount := by
            have h := decodeStep_tokenCount_of_cont P tr n st (by rw [hstep])
            rw [hstep] at h
            exact h
          have hitc' : st'.inferenceTokenCount = 1 := by
            have h := decodeStep_itc_of_cont P tr n st (by rw [hstep])
            rw [hstep] at h
            exact h
          exact ih fuel₂ st' (by omega) (by omega) (by omega)
      · rfl

/-- Early-exit lemma: if every live sample will have emitted eos/pad by
step `t`, the loop performs at most `t + 1` decoder calls from a state
whose step counter is at most `t`. -/
theorem runLoop_early_exit (P : DecodeParams) (tr : Trace) (n : ℕ) :
    ∀ fuel st t,
      (∀ j < n, st.allDone j = true ∨
        ∃ s, st.steps ≤ s ∧ s ≤ t ∧ isDoneTok P (tr.predOf s j) = true) →
      st.steps ≤ t → (runLoop P tr n fuel st).steps ≤ t + 1 := by
  intro fuel
  induction fuel with
  | zero =>
    intro st t _ hle
    simp only [runLoop]
    omega
  | succ fuel ih =>
    intro st t hdone hle
    simp only [runLoop]
    split
    · next hcond =>
      rcases hstep : decodeStep P tr n st with ⟨st', brk⟩
      have hsteps : st'.steps = st.steps + 1 := by
        have h := decodeStep_steps P tr n st
        rw [hstep] at h
        exact h
      have hAD : st'.allDone =
          fun j => st.allDone j || isDoneTok P (tr.predOf st.steps j) := by
        have h := decodeStep_allDone P tr n st
        rw [hstep] at h
        exact h
      cases brk with
      | true =>
        dsimp only
        omega
      | false =>
        have hall : (List.range n).all
            (fun j => st.allDone j || isDoneTok P (tr.predOf st.steps j)) =
              false := by
          have h := decodeStep_snd P tr n st
          rw [hstep] at h
          exact h.symm
        rcases List.all_eq_false.mp hall with ⟨j0, hj0mem, hj0⟩
        have hj0n : j0 < n := List.mem_range.mp hj0mem
        simp only [Bool.or_eq_true, not_or, Bool.not_eq_true] at hj0
        have hj0' := hj0
        have hstrict : st.steps + 1 ≤ t := by
          rcases hdone j0 hj0n with hT | ⟨s, hs1, hs2, hd⟩
          · rw [hT] at hj0'
            cases hj0'.1
          · rcases Nat.eq_or_lt_of_le hs1 with rfl | hlt
            · rw [hd] at hj0'
              cases hj0'.2
            · omega
        dsimp only
        refine ih st' t ?_ (by omega)
        intro j hjn
        rcases hdone j hjn with hT | ⟨s, hs1, hs2, hd⟩
        · left
          simp [hAD, hT]
        · rcases Nat.eq_or_lt_of_le hs1 with rfl | hlt
          · left
            simp [hAD, hd]
          · right
            exact ⟨s, by omega, hs2, hd⟩
    · omega

/-- The step counter never decreases along the loop. -/
theorem runLoop_steps_mono (P : DecodeParams) (tr : Trace) (n : ℕ) :
    ∀ fuel st, st.steps ≤ (runLoop P tr n fuel st).steps := by
  intro fuel
  induction fuel with
  | zero => intro st; simp [runLoop]
  | succ fuel ih =>
    intro st
    simp only [runLoop]
    split
    · rcases hstep : decodeStep P tr n st with ⟨st', brk⟩
      have hsteps : st'.steps = st.steps + 1 := by
        have h := decodeStep_steps P tr n st
        rw [hstep] at h
        exact h
      cases brk with
      | true =>
        dsimp only
        omega
      | false =>
        dsimp only
        have := ih st'
        omega
    · exact le_refl _

/-- C8: For every batch and every decoder behaviour, the decode loop
performs at most `maxTokens` decoder calls; the result is independent of
any fuel covering that budget (the `while` loop terminates within it); and
if every sample has emitted eos/pad by step `t`, the loop stops within
`t + 1` calls — whichever bound comes first. -/
theorem decode_loop_terminates (P : DecodeParams) (tr : Trace) (n L fuel : ℕ)
    (hL : 1 ≤ L) :
    (decodeLoop P tr n L fuel).steps ≤ P.maxTokens ∧
    (P.maxTokens ≤ fuel →
      decodeLoop P tr n L fuel = decodeLoop P tr n L P.maxTokens) ∧
    ∀ t, (∀ j < n, ∃ s ≤ t, isDoneTok P (tr.predOf s j) = true) →
      (decodeLoop P tr n L fuel).steps ≤ t + 1 := by
  refine ⟨?_, ?_, ?_⟩
  · have h := runLoop_steps_le P tr n fuel (initState L)
      (by simpa [initState] using hL)
    simp only [initState] at h
    unfold decodeLoop initState
    omega
  · intro hf
    unfold decodeLoop
    exact runLoop_fuel_irrelevant P tr n fuel P.maxTokens (initState L)
      (by simpa [initState] using hL)
      (by simp only [initState]; omega)
      (by simp only [initState]; omega)
  · intro t ht
    unfold decodeLoop
    refine runLoop_early_exit P tr n fuel (initState L) t ?_
      (by simp [initState])
    intro j hj
    rcases ht j hj with ⟨s, hs, hd⟩
    right
    exact ⟨s, by simp [initState], hs, hd⟩

/-- A synthetic model stub that never emits eos/pad: constant token 5 with
score 1/2 at every step and for every sample. -/
def trStub : Trace := ⟨fun _ _ => 5, fun _ _ => 1 / 2⟩

/-- Witness for C8: with eos = 1, pad = 2, a 5-token budget, a 2-sample
batch, input width 1 and generous fuel 9, the stub that never finishes
still stops within the budget. -/
theorem decode_loop_terminates_witness :
    (decodeLoop ⟨1, 2, 5⟩ trStub 2 1 9).steps ≤
      (DecodeParams.mk 1 2 5).maxTokens :=
  (decode_loop_terminates ⟨1, 2, 5⟩ trStub 2 1 9 (by decide)).1

/-- Invariant of the states entering the while test (never produced by a
break) for an `n`-sample batch whose initial decoder input has width `L`:
token and input counters, done mask, score rows and prediction lists all
follow the closed forms in the step counter. -/
def LoopInv (P : DecodeParams) (tr : Trace) (n L : ℕ) (st : DecState) : Prop :=
  st.inferenceTokenCount = (if st.steps = 0 then L else 1) ∧
  st.tokenCount = (if st.steps = 0 then 0 else L + (st.steps - 1)) ∧
  (∀ j, st.allDone j =
    if st.steps = 0 then false else doneBy P tr j (st.steps - 1)) ∧
  (∀ j, st.seqScores j = recordedRow P tr n j st.steps) ∧
  (∀ j, st.batchPredictions j = recordedPreds P tr j st.steps) ∧
  st.broke = false

/-- Closed-form characterization of the loop's final state: score rows
cover every executed step; prediction lists cover every executed step
except a final breaking one; the done mask is the accumulated `doneBy`. -/
def FinalChar (P : DecodeParams) (tr : Trace) (n : ℕ) (st : DecState) : Prop :=
  (∀ j, st.seqScores j = recordedRow P tr n j st.steps) ∧
  (∀ j, st.batchPredictions j =
    recordedPreds P tr j (st.steps - (if st.broke then 1 else 0))) ∧
  (∀ j, st.allDone j =
    if st.steps = 0 then false else doneBy P tr j (st.steps - 1))

/-- The or-accumulated done mask computed by a step is `doneBy` at the
current step index. -/
theorem allDone_step (P : DecodeParams) (tr : Trace) (st : DecState)
    (hAD : ∀ j, st.allDone j =
      if st.steps = 0 then false else doneBy P tr j (st.steps - 1)) (j : ℕ) :
    (st.allDone j || isDoneTok P (tr.predOf st.steps j)) =
      doneBy P tr j st.steps := by
  cases hk : st.steps with
  | zero =>
    rw [hAD j, hk]
    simp [doneBy_zero]
  | succ m =>
    rw [hAD j, hk]
    simp only [Nat.succ_ne_zero, if_false, Nat.add_sub_cancel]
    exact (doneBy_succ P tr j m).symm

/-- One-step unfolding of the recorded-prediction closed form. -/
theorem recordedPreds_succ (P : DecodeParams) (tr : Trace) (j k : ℕ) :
    recordedPreds P tr j (k + 1) = recordedPreds P tr j k ++
      (if doneBy P tr j k then [] else [tr.predOf k j]) := by
  simp only [recordedPreds, List.range_succ, List.filterMap_append]
  congr 1
  split <;> simp_all

/-- One-step unfolding of the recorded-score closed form. -/
theorem recordedScore_map_succ (P : DecodeParams) (tr : Trace) (j k : ℕ) :
    (List.range (k + 1)).map (recordedScore P tr j) =
      (List.range k).map (recordedScore P tr j) ++ [recordedScore P tr j k] := by
  rw [List.range_succ, List.map_append]
  rfl

/-- The score row produced by a step (prefill assignment or append of the
broadcast-masked block) matches `recordedRow` at `steps + 1`. -/
theorem seqScores_step (P : DecodeParams) (tr : Trace) (n L : ℕ)
    (st : DecState) (hL : 1 ≤ L)
    (htc : st.tokenCount = if st.steps = 0 then 0 else L + (st.steps - 1))
    (hAD : ∀ j, st.allDone j =
      if st.steps = 0 then false else doneBy P tr j (st.steps - 1))
    (hSS : ∀ j, st.seqScores j = recordedRow P tr n j st.steps)
    (j : ℕ) :
    (if st.tokenCount == 0 then fun i => [tr.scoreOf st.steps i]
     else fun i => st.seqScores i ++
       (List.range n).map fun j2 =>
         if st.allDone j2 || isDoneTok P (tr.predOf st.steps j2) then 0
         else tr.scoreOf st.steps i) j =
      recordedRow P tr n j (st.steps + 1) := by
  have hADS := allDone_step P tr st hAD
  cases hk : st.steps with
  | zero =>
    have htc0 : st.tokenCount = 0 := by simp [htc, hk]
    rw [htc0]
    simp only [beq_self_eq_true, if_true]
    simp [recordedRow]
  | succ m =>
    have htc0 : (st.tokenCount == 0) = false := by
      simp only [htc, hk, Nat.succ_ne_zero, if_false, beq_eq_false_iff_ne,
        ne_eq]
      omega
    simp only [hk] at hADS hSS
    rw [htc0]
    simp only [Bool.false_eq_true, if_false]
    rw [hSS j]
    have hblock : ((List.range n).map fun j2 =>
        if st.allDone j2 || isDoneTok P (tr.predOf (m + 1) j2) then 0
        else tr.scoreOf (m + 1) j) = recordedBlock P tr n j (m + 1) := by
      simp only [recordedBlock]
      refine List.map_congr_left fun j2 _ => ?_
      rw [hADS j2]
    rw [hblock]
    simp [recordedRow]

/-- A breaking step sends an invariant-satisfying state to one satisfying
the final characterization. -/
theorem finalChar_of_break (P : DecodeParams) (tr : Trace) (n L : ℕ)
    (st : DecState) (hL : 1 ≤ L) (hinv : LoopInv P tr n L st)
    (hall : (List.range n).all
      (fun j => st.allDone j || isDoneTok P (tr.predOf st.steps j)) = true) :
    FinalChar P tr n (decodeStep P tr n st).1 := by
  obtain ⟨hitc, htc, hAD, hSS, hBP, hBR⟩ := hinv
  rw [decodeStep_fst_of_break P tr n st hall]
  refine ⟨?_, ?_, ?_⟩
  · intro j
    exact seqScores_step P tr n L st hL htc hAD hSS j
  · intro j
    simp only [if_true]
    rw [hBP j]
    simp
  · intro j
    simp only [Nat.succ_ne_zero, Nat.add_sub_cancel, if_false]
    exact allDone_step P tr st hAD j

/-- A non-breaking step preserves the loop invariant. -/
theorem LoopInv_of_cont (P : DecodeParams) (tr : Trace) (n L : ℕ)
    (st : DecState) (hL : 1 ≤ L) (hinv : LoopInv P tr n L st)
    (hall : (List.range n).all
      (fun j => st.allDone j || isDoneTok P (tr.predOf st.steps j)) = false) :
    LoopInv P tr n L (decodeStep P tr n st).1 := by
  obtain ⟨hitc, htc, hAD, hSS, hBP, hBR⟩ := hinv
  rw [decodeStep_fst_of_cont P tr n st hall]
  refine ⟨rfl, ?_, ?_, ?_, ?_, rfl⟩
  · simp only [Nat.succ_ne_zero, if_false, Nat.add_sub_cancel]
    rw [htc, hitc]
    cases hk : st.steps with
    | zero => simp
    | succ m =>
      simp only [Nat.succ_ne_zero, if_false, Nat.add_sub_cancel]
      omega
  · intro j
    simp only [Nat.succ_ne_zero, Nat.add_sub_cancel, if_false]
    exact allDone_step P tr st hAD j
  · intro j
    exact seqScores_step P tr n L st hL htc hAD hSS j
  · intro j
    simp only []
    rw [hBP j, recordedPreds_succ, allDone_step P tr st hAD j]
    split <;> simp_all

/-- Running the loop from an invariant-satisfying state yields a state
satisfying the final characterization. -/
theorem runLoop_finalChar (P : DecodeParams) (tr : Trace) (n L : ℕ)
    (hL : 1 ≤ L) :
    ∀ fuel st, LoopInv P tr n L st →
      FinalChar P tr n (runLoop P tr n fuel st) := by
  intro fuel
  induction fuel with
  | zero =>
    intro st hinv
    obtain ⟨_, _, hAD, hSS, hBP, hBR⟩ := hinv
    simp only [runLoop]
    exact ⟨hSS, by simpa [hBR] using hBP, hAD⟩
  | succ fuel ih =>
    intro st hinv
    simp only [runLoop]
    split
    · rcases hstep : decodeStep P tr n st with ⟨st', brk⟩
      have hsnd := decodeStep_snd P tr n st
      rw [hstep] at hsnd
      cases brk with
      | true =>
        dsimp only
        have h := finalChar_of_break P tr n L st hL hinv hsnd.symm
        rw [hstep] at h
        exact h
      | false =>
        dsimp only
        have h := LoopInv_of_cont P tr n L st hL hinv hsnd.symm
        rw [hstep] at h
        exact ih st' h
    · obtain ⟨_, _, hAD, hSS, hBP, hBR⟩ := hinv
      exact ⟨hSS, by simpa [hBR] using hBP, hAD⟩

/-- The entry state satisfies the loop invariant. -/
theorem initState_inv (P : DecodeParams) (tr : Trace) (n L : ℕ) :
    LoopInv P tr n L (initState L) := by
  refine ⟨rfl, rfl, fun j => rfl, fun j => rfl, fun j => ?_, rfl⟩
  simp [initState, recordedPreds]

/-- Closed-form characterization of the decode loop's final state. -/
theorem decodeLoop_finalChar (P : DecodeParams) (tr : Trace) (n L fuel : ℕ)
    (hL : 1 ≤ L) : FinalChar P tr n (decodeLoop P tr n L fuel) :=
  runLoop_finalChar P tr n L hL fuel (initState L) (initState_inv P tr n L)

/-- With a budget of at least two tokens and any positive fuel, the loop
performs at least the prefill call. -/
theorem decodeLoop_steps_pos (P : DecodeParams) (tr : Trace) (n L fuel : ℕ)
    (hM : 2 ≤ P.maxTokens) (hfuel : 1 ≤ fuel) :
    1 ≤ (decodeLoop P tr n L fuel).steps := by
  cases fuel with
  | zero => omega
  | succ fuel =>
    unfold decodeLoop
    simp only [runLoop]
    have hcond : (initState L).tokenCount < P.maxTokens - 1 := by
      simp only [initState]
      omega
    rw [if_pos hcond]
    rcases hstep : decodeStep P tr n (initState L) with ⟨st', brk⟩
    have hsteps : st'.steps = 1 := by
      have h := decodeStep_steps P tr n (initState L)
      rw [hstep] at h
      simpa [initState] using h
    cases brk with
    | true =>
      dsimp only
      omega
    | false =>
      dsimp only
      have h := runLoop_steps_mono P tr n fuel st'
      omega

/-- Aggregation over a closed-form score row: when the first `k` entries
are the raw scores (all nonzero) and every later entry is zero, the
nonzero count is exactly `k` and the confidence is the mean of those `k`
raw scores. -/
theorem confidence_closed (P : DecodeParams) (tr : Trace) (j k steps : ℕ)
    (hks : k ≤ steps)
    (hraw : ∀ s < k, recordedScore P tr j s = tr.scoreOf s j)
    (hzero : ∀ s, k ≤ s → recordedScore P tr j s = 0)
    (hnz : ∀ s < k, tr.scoreOf s j ≠ 0) :
    countNonzero ((List.range steps).map (recordedScore P tr j)) = k ∧
    confidence ((List.range steps).map (recordedScore P tr j)) =
      ((List.range k).map (fun s => tr.scoreOf s j)).sum / (k : ℚ) := by
  obtain ⟨d, rfl⟩ : ∃ d, steps = k + d := ⟨steps - k, by omega⟩
  rw [List.range_add, List.map_append]
  have hA : (List.range k).map (recordedScore P tr j) =
      (List.range k).map (fun s => tr.scoreOf s j) :=
    List.map_congr_left fun s hs => hraw s (List.mem_range.mp hs)
  have hB : ((List.range d).map (fun x => k + x)).map (recordedScore P tr j) =
      List.replicate d (0 : ℚ) := by
    rw [List.map_map, List.eq_replicate_iff]
    refine ⟨by simp, ?_⟩
    intro b hb
    rcases List.mem_map.mp hb with ⟨i, _, hib⟩
    rw [← hib]
    exact hzero (k + i) (by omega)
  rw [hA, hB]
  have hcount : countNonzero
      ((List.range k).map (fun s => tr.scoreOf s j) ++
        List.replicate d (0 : ℚ)) = k := by
    unfold countNonzero
    rw [List.filter_append]
    have h1 : ((List.range k).map (fun s => tr.scoreOf s j)).filter
        (fun x => decide (x ≠ 0)) =
          (List.range k).map (fun s => tr.scoreOf s j) := by
      rw [List.filter_eq_self]
      intro a ha
      rcases List.mem_map.mp ha with ⟨s, hs, hsa⟩
      simpa [← hsa] using hnz s (List.mem_range.mp hs)
    have h2 : (List.replicate d (0 : ℚ)).filter (fun x => decide (x ≠ 0)) =
        [] := by
      rw [List.filter_eq_nil_iff]
      intro a ha
      rw [List.eq_of_mem_replicate ha]
      simp
    rw [h1, h2, List.append_nil, List.length_map, List.length_range]
  refine ⟨hcount, ?_⟩
  unfold confidence
  rw [hcount, List.sum_append, List.sum_replicate, smul_zero, add_zero]

/-- Emitting eos/pad at step `s` makes the sample done by `s`. -/
theorem doneBy_self (P : DecodeParams) (tr : Trace) {j s : ℕ}
    (hd : isDoneTok P (tr.predOf s j) = true) : doneBy P tr j s = true := by
  simp only [doneBy, List.any_eq_true, List.mem_range]
  exact ⟨s, by omega, hd⟩

/-- A sample that is done from step 0 on never accumulates predictions. -/
theorem recordedPreds_nil (P : DecodeParams) (tr : Trace) (j : ℕ)
    (h : ∀ s, doneBy P tr j s = true) (m : ℕ) :
    recordedPreds P tr j m = [] := by
  rw [recordedPreds, List.filterMap_eq_nil_iff]
  intro a _
  simp [h a]

/-- For a one-sample batch the broadcast block degenerates to the sample's
own masked entry, so the row is the per-step masked score sequence. -/
theorem recordedRow_one (P : DecodeParams) (tr : Trace) (k : ℕ) :
    recordedRow P tr 1 0 k = (List.range k).map (recordedScore P tr 0) := by
  induction k with
  | zero => rfl
  | succ k ih =>
    rw [recordedRow, ih, recordedScore_map_succ]
    congr 1
    cases k with
    | zero => simp [recordedScore]
    | succ m => simp [recordedBlock, recordedScore, List.range_succ]

/-- The first entry of a nonempty closed-form row is the raw prefill
score, at every batch size. -/
theorem recordedRow_head (P : DecodeParams) (tr : Trace) (n i : ℕ) :
    ∀ m, 1 ≤ m → (recordedRow P tr n i m)[0]? = some (tr.scoreOf 0 i) := by
  intro m
  induction m with
  | zero => omega
  | succ k ih =>
    intro _
    rw [recordedRow]
    cases k with
    | zero => simp [recordedRow]
    | succ m =>
      have h0 := ih (by omega)
      rcases List.getElem?_eq_some.mp h0 with ⟨hlt, _⟩
      rw [List.getElem?_append_left hlt]
      exact h0

/-- C3 (amended): the prefill step records one raw score entry per sample
(even for samples done at prefill). At every later step the broadcast
`masked_fill` appends, to every sample's row, one entry per batch member:
the entry in column `j` is zeroed exactly when sample `j` is done by the
**end** of that step — samples that become done on the step itself
included — and is the row sample's raw step score otherwise
(`recordedBlock`). In particular, in a one-sample batch the terminal
step's own score is zeroed, not recorded. -/
theorem step_score_masking (P : DecodeParams) (tr : Trace) (n L fuel : ℕ)
    (hL : 1 ≤ L) (i : ℕ) :
    (decodeLoop P tr n L fuel).seqScores i =
      recordedRow P tr n i (decodeLoop P tr n L fuel).steps :=
  (decodeLoop_finalChar P tr n L fuel hL).1 i

/-- C4 (amended): in a single-sample batch, a sample first done at step
`k` (0-based, `k ≥ 1`: a non-prefill terminal step), in a run that
proceeds past step `k`, has exactly `k` nonzero scores — those of steps 0
through `k - 1`, strictly **before** its terminal step — and its
confidence is their mean. (In larger batches the broadcast masking makes
every row accumulate one column-masked entry per batch member and step, so
a sample's confidence also absorbs its own post-termination scores while
any other sample is alive, and the per-sample mean fails; see the
counterexamples of C4 and C5.) -/
theorem confidence_of_terminal (P : DecodeParams) (tr : Trace)
    (L fuel k : ℕ) (hL : 1 ≤ L) (hk : 1 ≤ k)
    (hdone : isDoneTok P (tr.predOf k 0) = true)
    (hbefore : ∀ s < k, isDoneTok P (tr.predOf s 0) = false)
    (hsteps : k < (decodeLoop P tr 1 L fuel).steps)
    (hnz : ∀ s < k, tr.scoreOf s 0 ≠ 0) :
    countNonzero ((decodeLoop P tr 1 L fuel).seqScores 0) = k ∧
    confidence ((decodeLoop P tr 1 L fuel).seqScores 0) =
      ((List.range k).map (fun s => tr.scoreOf s 0)).sum / (k : ℚ) := by
  have hrow := (decodeLoop_finalChar P tr 1 L fuel hL).1 0
  rw [hrow, recordedRow_one]
  apply confidence_closed P tr 0 k _ (le_of_lt hsteps)
  · intro s hs
    cases s with
    | zero => simp [recordedScore]
    | succ m =>
      have hdb : doneBy P tr 0 (m + 1) = false :=
        doneBy_eq_false P tr fun s2 hs2 => hbefore s2 (by omega)
      simp [recordedScore, hdb]
  · intro s hks
    have hdb : doneBy P tr 0 s = true :=
      doneBy_mono P tr hks (doneBy_self P tr hdone)
    have hs0 : s ≠ 0 := by omega
    simp [recordedScore, hdb, hs0]
  · exact hnz

/-- C5 (amended): a sample whose first predicted token (at the prefill
step) is eos/pad ends the batch with an empty predicted token sequence at
every batch size. In a single-sample batch its score row additionally has
exactly one nonzero entry (the prefill score) and its confidence equals
that single score, with no division by zero; in larger batches the
broadcast masking lets the done sample's row keep accumulating its own
later-step scores in the columns of still-alive samples, so its confidence
can differ from the prefill score (see the counterexample). -/
theorem prefill_eos_empty (P : DecodeParams) (tr : Trace) (n L fuel j : ℕ)
    (hL : 1 ≤ L) (hM : 2 ≤ P.maxTokens) (hfuel : 1 ≤ fuel)
    (hdone : isDoneTok P (tr.predOf 0 j) = true)
    (hnz : tr.scoreOf 0 j ≠ 0) :
    (decodeLoop P tr n L fuel).batchPredictions j = [] ∧
    (n = 1 → j = 0 →
      countNonzero ((decodeLoop P tr 1 L fuel).seqScores 0) = 1 ∧
      confidence ((decodeLoop P tr 1 L fuel).seqScores 0) =
        tr.scoreOf 0 0) := by
  have hall : ∀ s, doneBy P tr j s = true := fun s =>
    doneBy_mono P tr (Nat.zero_le s) (doneBy_self P tr hdone)
  constructor
  · rw [(decodeLoop_finalChar P tr n L fuel hL).2.1 j]
    exact recordedPreds_nil P tr j hall _
  · rintro rfl rfl
    have hchar := decodeLoop_finalChar P tr 1 L fuel hL
    have hsp := decodeLoop_steps_pos P tr 1 L fuel hM hfuel
    have hraw : ∀ s < 1, recordedScore P tr 0 s = tr.scoreOf s 0 := by
      intro s hs
      have h0 : s = 0 := by omega
      subst h0
      simp [recordedScore]
    have hzero : ∀ s, 1 ≤ s → recordedScore P tr 0 s = 0 := by
      intro s hs
      have hs0 : s ≠ 0 := by omega
      simp [recordedScore, hs0, hall s]
    have hnz1 : ∀ s < 1, tr.scoreOf s 0 ≠ 0 := by
      intro s hs
      have h0 : s = 0 := by omega
      subst h0
      exact hnz
    have hc := confidence_closed P tr 0 1 _ hsp hraw hzero hnz1
    refine ⟨?_, ?_⟩
    · rw [hchar.1 0, recordedRow_one]
      exact hc.1
    · rw [hchar.1 0, recordedRow_one, hc.2]
      simp [List.range_succ]

/-- C10: under a budget allowing the prefill step, the prefill score is
stored without masking for every sample (the `(n, 1)` prefill assignment),
so with strictly positive per-step scores (softmax maxima in exact
arithmetic) every score row has a nonzero entry: the denominator of the
confidence division is at least 1 and the divide-by-zero branch is
unreachable. -/
theorem confidence_denominator_pos (P : DecodeParams) (tr : Trace)
    (n L fuel j : ℕ) (hL : 1 ≤ L) (hM : 2 ≤ P.maxTokens) (hfuel : 1 ≤ fuel)
    (hpos : ∀ s, 0 < tr.scoreOf s j) :
    ((decodeLoop P tr n L fuel).seqScores j)[0]? = some (tr.scoreOf 0 j) ∧
    0 < countNonzero ((decodeLoop P tr n L fuel).seqScores j) := by
  have hchar := (decodeLoop_finalChar P tr n L fuel hL).1 j
  have hsp := decodeLoop_steps_pos P tr n L fuel hM hfuel
  have hhead : ((decodeLoop P tr n L fuel).seqScores j)[0]? =
      some (tr.scoreOf 0 j) := by
    rw [hchar]
    exact recordedRow_head P tr n j _ hsp
  refine ⟨hhead, ?_⟩
  unfold countNonzero
  rw [List.length_pos_iff_exists_mem]
  refine ⟨tr.scoreOf 0 j, ?_⟩
  rw [List.mem_filter]
  rcases List.getElem?_eq_some.mp hhead with ⟨hlt, hget⟩
  refine ⟨hget ▸ List.getElem_mem hlt, ?_⟩
  simp only [decide_eq_true_eq]
  exact ne_of_gt (hpos 0)

/-- Trace staying alive at prefill (token 5) and emitting eos (token 1)
from step 1 on, with constant score 1. -/
def trPrefillAlive : Trace :=
  ⟨fun s _ => if s = 0 then 5 else 1, fun _ _ => 1⟩

/-- Trace emitting eos (token 1) immediately at prefill, with constant
score 1. -/
def trPrefillEos : Trace := ⟨fun _ _ => 1, fun _ _ => 1⟩

/-- Trace for the C3/C4 counterexamples: the (single) sample stays alive
at prefill (token 5, score 1/2) and emits eos (token 1, score 1/4) from
step 1 on. -/
def trLateEos : Trace :=
  ⟨fun s _ => if s = 0 then 5 else 1,
   fun s _ => if s = 0 then 1 / 2 else 1 / 4⟩

/-- Two-sample trace for the C5 counterexample and the C3 witness: sample
0 emits eos at prefill (score 1/2) and then keeps producing non-eos token
9 with score 1/4; sample 1 stays alive (token 5, score 1/3) until it emits
eos at step 2. -/
def trMixedEos : Trace :=
  ⟨fun s j => if j = 0 then (if s = 0 then 1 else 9)
    else (if s ≤ 1 then 5 else 1),
   fun s j => if j = 0 then (if s = 0 then 1 / 2 else 1 / 4) else 1 / 3⟩

/-- Witness for C3 (amended) at a concrete two-sample run in which sample
0 finishes at prefill and sample 1 two steps later. -/
theorem step_score_masking_witness :
    (decodeLoop ⟨1, 2, 10⟩ trMixedEos 2 1 10).seqScores 0 =
      recordedRow ⟨1, 2, 10⟩ trMixedEos 2 0
        (decodeLoop ⟨1, 2, 10⟩ trMixedEos 2 1 10).steps :=
  step_score_masking ⟨1, 2, 10⟩ trMixedEos 2 1 10 (by decide) 0

/-- C3 counterexample: with eos = 1, pad = 2, budget 10, one sample and
input width 1, the sample becomes done exactly at step 1 (not before); the
raw step-1 score is 1/4 ≠ 0, yet the recorded score row is [1/2, 0] — the
terminal step's score was zeroed, not recorded. -/
theorem step_score_masking_cex :
    isDoneTok ⟨1, 2, 10⟩ (trLateEos.predOf 0 0) = false ∧
    isDoneTok ⟨1, 2, 10⟩ (trLateEos.predOf 1 0) = true ∧
    trLateEos.scoreOf 1 0 = 1 / 4 ∧ (1 / 4 : ℚ) ≠ 0 ∧
    (decodeLoop ⟨1, 2, 10⟩ trLateEos 1 1 10).seqScores 0 = [1 / 2, 0] := by
  refine ⟨by decide, by decide, rfl, by norm_num, rfl⟩

/-- Witness for C4 (amended) at a concrete one-sample run terminating at
step 1: one counted score, confidence equal to the prefill score. -/
theorem confidence_of_terminal_witness :
    countNonzero ((decodeLoop ⟨1, 2, 10⟩ trPrefillAlive 1 1 10).seqScores 0) =
      1 ∧
    confidence ((decodeLoop ⟨1, 2, 10⟩ trPrefillAlive 1 1 10).seqScores 0) =
      ((List.range 1).map (fun s => trPrefillAlive.scoreOf s 0)).sum / (1 : ℚ) :=
  confidence_of_terminal ⟨1, 2, 10⟩ trPrefillAlive 1 10 1 (by decide)
    (by decide) (by decide) (by decide) (by decide) (by decide)

/-- C4 counterexample: the (single) sample terminates at its second step
(step 1); the claim as stated predicts the mean of its first two per-step
scores, (1/2 + 1/4) / 2 = 3/8, but the recorded row is [1/2, 0] and the
code computes 1/2. -/
theorem confidence_of_terminal_cex :
    isDoneTok ⟨1, 2, 10⟩ (trLateEos.predOf 0 0) = false ∧
    isDoneTok ⟨1, 2, 10⟩ (trLateEos.predOf 1 0) = true ∧
    confidence ((decodeLoop ⟨1, 2, 10⟩ trLateEos 1 1 10).seqScores 0) =
      1 / 2 ∧
    (1 / 2 : ℚ) ≠ (1 / 2 + 1 / 4) / 2 := by
  have hrow : (decodeLoop ⟨1, 2, 10⟩ trLateEos 1 1 10).seqScores 0 =
      [1 / 2, 0] := rfl
  refine ⟨by decide, by decide, ?_, by norm_num⟩
  rw [hrow]
  norm_num [confidence, countNonzero]

/-- Witness for C5 (amended) at a concrete one-sample run whose first
predicted token is eos. -/
theorem prefill_eos_empty_witness :
    (decodeLoop ⟨1, 2, 10⟩ trPrefillEos 1 1 10).batchPredictions 0 = [] ∧
    ((1 : ℕ) = 1 → (0 : ℕ) = 0 →
      countNonzero ((decodeLoop ⟨1, 2, 10⟩ trPrefillEos 1 1 10).seqScores 0) =
        1 ∧
      confidence ((decodeLoop ⟨1, 2, 10⟩ trPrefillEos 1 1 10).seqScores 0) =
        trPrefillEos.scoreOf 0 0) :=
  prefill_eos_empty ⟨1, 2, 10⟩ trPrefillEos 1 1 10 0 (by decide) (by decide)
    (by decide) (by decide) (by decide)

/-- C5 counterexample: in a two-sample batch, sample 0's first predicted
token is eos, its text is empty, but its row keeps collecting its own
later scores in the column of the still-alive sample 1: the row becomes
[1/2, 0, 1/4, 0, 0] and the confidence is 3/8, not the single prefill
score 1/2. -/
theorem prefill_eos_empty_cex :
    isDoneTok ⟨1, 2, 10⟩ (trMixedEos.predOf 0 0) = true ∧
    trMixedEos.scoreOf 0 0 = 1 / 2 ∧
    (decodeLoop ⟨1, 2, 10⟩ trMixedEos 2 1 10).batchPredictions 0 = [] ∧
    (decodeLoop ⟨1, 2, 10⟩ trMixedEos 2 1 10).seqScores 0 =
      [1 / 2, 0, 1 / 4, 0, 0] ∧
    confidence ((decodeLoop ⟨1, 2, 10⟩ trMixedEos 2 1 10).seqScores 0) =
      3 / 8 ∧
    (3 / 8 : ℚ) ≠ 1 / 2 := by
  have hrow : (decodeLoop ⟨1, 2, 10⟩ trMixedEos 2 1 10).seqScores 0 =
      [1 / 2, 0, 1 / 4, 0, 0] := rfl
  refine ⟨by decide, rfl, rfl, hrow, ?_, by norm_num⟩
  rw [hrow]
  norm_num [confidence, countNonzero]

/-- Witness for C10 at a concrete run. -/
theorem confidence_denominator_pos_witness :
    ((decodeLoop ⟨1, 2, 10⟩ trPrefillEos 1 1 10).seqScores 0)[0]? =
      some (trPrefillEos.scoreOf 0 0) ∧
    0 < countNonzero ((decodeLoop ⟨1, 2, 10⟩ trPrefillEos 1 1 10).seqScores 0) :=
  confidence_denominator_pos ⟨1, 2, 10⟩ trPrefillEos 1 1 10 0 (by decide)
    (by decide) (by decide) (fun _ => one_pos)

/- ### Batch planning and result-assembly lemmas -/

/-- When every per-batch call returns one result per image in the batch,
the concatenation over all batches returns one result per image. -/
theorem runBatches_length {α L R : Type} (f : List α → List L → List R)
    (hf : ∀ a b, (f a b).length = a.length) (bs : ℕ) (hbs : 1 ≤ bs) :
    ∀ N imgs langs, imgs.length ≤ N →
      (runBatches f bs imgs langs).length = imgs.length := by
  intro N
  induction N with
  | zero =>
    intro imgs langs hN
    have : imgs = [] := List.length_eq_zero.mp (by omega)
    subst this
    rw [runBatches]
    simp
  | succ N ih =>
    intro imgs langs hN
    rw [runBatches]
    split
    · next h =>
      simp only [Bool.or_eq_true, List.isEmpty_iff, beq_iff_eq] at h
      rcases h with h | h
      · simp [h]
      · omega
    · next h =>
      simp only [Bool.or_eq_true, List.isEmpty_iff, beq_iff_eq, not_or] at h
      have hpos : 0 < imgs.length := List.length_pos.mpr h.1
      rw [List.length_append, hf, ih (imgs.drop bs) (langs.drop bs)
        (by simp only [List.length_drop]; omega)]
      simp only [List.length_take, List.length_drop]
      omega

/-- Core of the result assembler: sorting `zip(indices, vals)` by the
original index and projecting the values places the value zipped with
original index `oi` at output position `oi`, whenever `indices` is a
permutation of `0..n-1` and there is one value per index. -/
theorem restore_order_get {R : Type} (n : ℕ) (indices : List ℕ) (vals : List R)
    (hperm : indices.Perm (List.range n)) (hlen : vals.length = n) :
    ∀ oi r, (oi, r) ∈ indices.zip vals →
      (((List.insertionSort (fun a b => a.1 ≤ b.1) (indices.zip vals)).map
        Prod.snd))[oi]? = some r := by
  haveI hTot : IsTotal (ℕ × R) (fun a b => a.1 ≤ b.1) :=
    ⟨fun a b => le_total a.1 b.1⟩
  haveI hTrans : IsTrans (ℕ × R) (fun a b => a.1 ≤ b.1) :=
    ⟨fun _ _ _ hab hbc => le_trans hab hbc⟩
  intro oi r hmem
  have hlenI : indices.length = n := hperm.length_eq.trans (List.length_range n)
  have hzlen : (indices.zip vals).length = n := by
    rw [List.length_zip]
    omega
  have hpermS := List.perm_insertionSort (fun a b : ℕ × R => a.1 ≤ b.1)
    (indices.zip vals)
  have hfinlen : (List.insertionSort (fun a b : ℕ × R => a.1 ≤ b.1)
      (indices.zip vals)).length = n := hpermS.length_eq.trans hzlen
  have hsorted := List.sorted_insertionSort (fun a b : ℕ × R => a.1 ≤ b.1)
    (indices.zip vals)
  have hmapsorted : List.Sorted (fun a b : ℕ => a ≤ b)
      ((List.insertionSort (fun a b : ℕ × R => a.1 ≤ b.1)
        (indices.zip vals)).map Prod.fst) :=
    List.Pairwise.map Prod.fst (fun _ _ h => h) hsorted
  have hfst : List.map Prod.fst (indices.zip vals) = indices :=
    List.map_fst_zip indices vals (by omega)
  have hmapperm : ((List.insertionSort (fun a b : ℕ × R => a.1 ≤ b.1)
      (indices.zip vals)).map Prod.fst).Perm (List.range n) := by
    refine (hpermS.map Prod.fst).trans ?_
    rw [hfst]
    exact hperm
  have heq : (List.insertionSort (fun a b : ℕ × R => a.1 ≤ b.1)
      (indices.zip vals)).map Prod.fst = List.range n :=
    List.eq_of_perm_of_sorted hmapperm hmapsorted (List.sorted_le_range n)
  have hmemS : (oi, r) ∈ List.insertionSort (fun a b : ℕ × R => a.1 ≤ b.1)
      (indices.zip vals) := hpermS.mem_iff.mpr hmem
  obtain ⟨q, hq, hget⟩ := List.getElem_of_mem hmemS
  have hqn : q < n := hfinlen ▸ hq
  have hqfst : q = oi := by
    have h1 : ((List.insertionSort (fun a b : ℕ × R => a.1 ≤ b.1)
        (indices.zip vals)).map Prod.fst)[q]? = some q := by
      rw [heq]
      exact List.getElem?_range hqn
    have h2 : ((List.insertionSort (fun a b : ℕ × R => a.1 ≤ b.1)
        (indices.zip vals)).map Prod.fst)[q]? =
          some ((List.insertionSort (fun a b : ℕ × R => a.1 ≤ b.1)
            (indices.zip vals))[q].1) := by
      rw [List.getElem?_eq_getElem (by rw [List.length_map]; exact hq),
        List.getElem_map]
    rw [h1, hget] at h2
    exact (Option.some.inj h2)
  subst hqfst
  have hq' : q < ((List.insertionSort (fun a b : ℕ × R => a.1 ≤ b.1)
      (indices.zip vals)).map Prod.snd).length := by
    rw [List.length_map]
    exact hq
  rw [List.getElem?_eq_getElem hq', List.getElem_map, hget]

/-- C2: `batch_recognition` returns one text and one confidence per input
image, and the final sort by remembered original index restores caller
order: the per-batch result zipped with original index `oi` lands at
output position `oi`, for texts and confidences alike, whatever the
internal width-sort and chunking did. -/
theorem batch_recognition_restores_order {α L R S : Type} (width : α → ℕ)
    (images : List α) (languages : List L)
    (fT : List α → List L → List R) (fC : List α → List L → List S)
    (bs : ℕ) (hbs : 1 ≤ bs) (hlen : languages.length = images.length)
    (hfT : ∀ a b, (fT a b).length = a.length)
    (hfC : ∀ a b, (fC a b).length = a.length) :
    (batch_recognition width images languages fT fC bs).1.length =
      images.length ∧
    (batch_recognition width images languages fT fC bs).2.length =
      images.length ∧
    (∀ oi r, (oi, r) ∈ ((sortedPairs width images).map Prod.fst).zip
        (runBatches fT bs ((sortedPairs width images).map Prod.snd)
          languages) →
      (batch_recognition width images languages fT fC bs).1[oi]? = some r) ∧
    (∀ oi c, (oi, c) ∈ ((sortedPairs width images).map Prod.fst).zip
        (runBatches fC bs ((sortedPairs width images).map Prod.snd)
          languages) →
      (batch_recognition width images languages fT fC bs).2[oi]? = some c) := by
  by_cases himg : images.length = 0
  · have himgnil : images = [] := List.length_eq_zero.mp himg
    subst himgnil
    have hsp : sortedPairs width ([] : List α) = [] := rfl
    simp [batch_recognition, hsp]
  · have hpermI : ((sortedPairs width images).map Prod.fst).Perm
        (List.range images.length) := by
      have h := (List.perm_insertionSort
        (fun a b : ℕ × α => width a.2 ≤ width b.2) images.enum).map Prod.fst
      rwa [List.enum_map_fst] at h
    have hIlen : ((sortedPairs width images).map Prod.fst).length =
        images.length := hpermI.length_eq.trans (List.length_range _)
    have hSlen : ((sortedPairs width images).map Prod.snd).length =
        images.length := by
      rw [List.length_map]
      rw [List.length_map] at hIlen
      exact hIlen
    have htlen : (runBatches fT bs ((sortedPairs width images).map Prod.snd)
        languages).length = images.length := by
      rw [runBatches_length fT hfT bs hbs
        ((sortedPairs width images).map Prod.snd).length _ languages le_rfl]
      exact hSlen
    have hclen : (runBatches fC bs ((sortedPairs width images).map Prod.snd)
        languages).length = images.length := by
      rw [runBatches_length fC hfC bs hbs
        ((sortedPairs width images).map Prod.snd).length _ languages le_rfl]
      exact hSlen
    simp only [batch_recognition, himg, if_false]
    refine ⟨?_, ?_, ?_, ?_⟩
    · rw [List.length_map, (List.perm_insertionSort _ _).length_eq,
        List.length_zip, hIlen, htlen]
      exact min_self _
    · rw [List.length_map, (List.perm_insertionSort _ _).length_eq,
        List.length_zip, hIlen, hclen]
      exact min_self _
    · intro oi r hmem
      exact restore_order_get images.length _ _ hpermI htlen oi r hmem
    · intro oi c hmem
      exact restore_order_get images.length _ _ hpermI hclen oi c hmem

/-- Witness for C2 at a concrete input: two images of widths 2 and 1,
itemwise per-batch pipelines, batch size 2. -/
theorem batch_recognition_restores_order_witness :
    (batch_recognition (id : ℕ → ℕ) [2, 1] [0, 1]
      (fun a _ => a.map (fun x => x * 10))
      (fun a _ => a.map (fun x => x + 100)) 2).1.length = 2 :=
  (batch_recognition_restores_order id [2, 1] [0, 1]
    (fun a _ => a.map (fun x => x * 10)) (fun a _ => a.map (fun x => x + 100))
    2 (by decide) (by decide) (fun a b => by simp) (fun a b => by simp)).1

/-- C1 (evaluation at the failing input): two images of widths 2 and 1
with language-tag values 10 (for original index 0) and 11 (for original
index 1), batch size 2. The width sort puts the index-1 image first, but
the language slice keeps caller order, so the single planned batch pairs
the image of original index 1 positionally with language value 10 — the
caller supplied 11 for that image. -/
theorem plan_language_mispairing :
    plan (id : ℕ → ℕ) [2, 1] [10, 11] 2 = [([(1, 1), (0, 2)], [10, 11])] ∧
    ([10, 11] : List ℕ)[1]? = some 11 ∧ (11 : ℕ) ≠ 10 := by
  refine ⟨?_, by decide, by decide⟩
  have hs : sortedPairs (id : ℕ → ℕ) [2, 1] = [(1, 1), (0, 2)] := by rfl
  unfold plan
  rw [hs]
  rw [plannedChunks]
  norm_num
  rw [plannedChunks]
  simp
